import Mathlib

/-
Verification of the Minesweeper inference engine (minesweeper.py).

The Python classes Sentence and MinesweeperAI are shallowly embedded as Lean
structures over Finset cells.  Python's in-place mutation is modelled by
explicit state passing; the subsumption loop of add_knowledge, which iterates
over the knowledge list while appending to it, is modelled with explicit fuel
(step5Go) and returns none when the fuel runs out before the loop finishes.
-/

set_option linter.unusedVariables false

/-- Board cells are (row, column) integer pairs, mirroring the Python tuples. -/
abbrev Cell : Type := Int × Int

/-- Embedding of the Python class Sentence: a set of board cells and a count of
how many of them are mines.  Python's Sentence.__eq__ compares the cell set and
the count, which coincides with structural equality of this structure. -/
structure Sentence where
  cells : Finset Cell
  count : Int

instance : DecidableEq Sentence := fun a b =>
  decidable_of_iff (a.cells = b.cells ∧ a.count = b.count)
    (by cases a; cases b; simp)

/-- Sentence.known_mines: returns cells when len(cells) == count and count != 0,
otherwise the empty set. -/
def Sentence.known_mines (s : Sentence) : Finset Cell :=
  if (s.cells.card : Int) = s.count ∧ s.count ≠ 0 then s.cells else ∅

/-- Sentence.known_safes: returns cells when count == 0, otherwise the empty set. -/
def Sentence.known_safes (s : Sentence) : Finset Cell :=
  if s.count = 0 then s.cells else ∅

/-- Sentence.mark_mine: if cell is in cells, remove it and decrement count. -/
def Sentence.mark_mine (s : Sentence) (cell : Cell) : Sentence :=
  if cell ∈ s.cells then ⟨s.cells.erase cell, s.count - 1⟩ else s

/-- Sentence.mark_safe: if cell is in cells, remove it; count is unchanged. -/
def Sentence.mark_safe (s : Sentence) (cell : Cell) : Sentence :=
  if cell ∈ s.cells then ⟨s.cells.erase cell, s.count⟩ else s

/-- Embedding of the Python class MinesweeperAI: board dimensions, the three
tracked cell sets and the knowledge list of sentences. -/
structure MinesweeperAI where
  height : Int
  width : Int
  moves_made : Finset Cell
  mines : Finset Cell
  safes : Finset Cell
  knowledge : List Sentence

instance : DecidableEq MinesweeperAI := fun a b =>
  decidable_of_iff (a.height = b.height ∧ a.width = b.width ∧
      a.moves_made = b.moves_made ∧ a.mines = b.mines ∧ a.safes = b.safes ∧
      a.knowledge = b.knowledge)
    (by cases a; cases b; simp)

/-- MinesweeperAI.__init__ with empty tracked sets and empty knowledge. -/
def MinesweeperAI.init (height width : Int) : MinesweeperAI :=
  ⟨height, width, ∅, ∅, ∅, []⟩

/-- MinesweeperAI.mark_mine: add the cell to mines and call Sentence.mark_mine
on every sentence in knowledge. -/
def MinesweeperAI.mark_mine (ai : MinesweeperAI) (cell : Cell) : MinesweeperAI :=
  { ai with mines := insert cell ai.mines,
            knowledge := ai.knowledge.map (fun s => s.mark_mine cell) }

/-- MinesweeperAI.mark_safe: add the cell to safes and call Sentence.mark_safe
on every sentence in knowledge. -/
def MinesweeperAI.mark_safe (ai : MinesweeperAI) (cell : Cell) : MinesweeperAI :=
  { ai with safes := insert cell ai.safes,
            knowledge := ai.knowledge.map (fun s => s.mark_safe cell) }

/-- Removing two cells from a sentence gives the same result in either order,
so iterating Sentence.mark_mine over a Python set is well defined. -/
instance : RightCommutative Sentence.mark_mine :=
  ⟨fun s a b => by
    by_cases hab : a = b
    · subst hab; rfl
    · unfold Sentence.mark_mine
      by_cases ha : a ∈ s.cells <;> by_cases hb : b ∈ s.cells <;>
        simp [ha, hb, Finset.mem_erase, hab, Ne.symm hab, Finset.erase_right_comm]⟩

/-- Removing two cells from a sentence gives the same result in either order,
so iterating Sentence.mark_safe over a Python set is well defined. -/
instance : RightCommutative Sentence.mark_safe :=
  ⟨fun s a b => by
    by_cases hab : a = b
    · subst hab; rfl
    · unfold Sentence.mark_safe
      by_cases ha : a ∈ s.cells <;> by_cases hb : b ∈ s.cells <;>
        simp [ha, hb, Finset.mem_erase, hab, Ne.symm hab, Finset.erase_right_comm]⟩

/-- Marking two mines gives the same agent state in either order, so iterating
MinesweeperAI.mark_mine over the cells of a known_mines set is well defined. -/
instance : RightCommutative MinesweeperAI.mark_mine :=
  ⟨fun st a b => by
    simp only [MinesweeperAI.mark_mine, List.map_map, MinesweeperAI.mk.injEq,
      and_true, true_and]
    refine ⟨Finset.Insert.comm b a st.mines, ?_⟩
    refine congrArg (fun f => List.map f st.knowledge) (funext fun s => ?_)
    exact @RightCommutative.right_comm _ _ Sentence.mark_mine _ s a b⟩

/-- Marking two safe cells gives the same agent state in either order, so
iterating MinesweeperAI.mark_safe over a known_safes set is well defined. -/
instance : RightCommutative MinesweeperAI.mark_safe :=
  ⟨fun st a b => by
    simp only [MinesweeperAI.mark_safe, List.map_map, MinesweeperAI.mk.injEq,
      and_true, true_and]
    refine ⟨Finset.Insert.comm b a st.safes, ?_⟩
    refine congrArg (fun f => List.map f st.knowledge) (funext fun s => ?_)
    exact @RightCommutative.right_comm _ _ Sentence.mark_safe _ s a b⟩

/-- The two-element-wide integer range range(x - 1, x + 2) used by the neighbor
loops in add_knowledge and nearby_mines. -/
def rng3 (x : Int) : List Int := [x - 1, x, x + 1]

/-- The candidate cells enumerated by the nested r, c loops around a cell. -/
def boxCells (cell : Cell) : List Cell :=
  (rng3 cell.1).flatMap (fun r => (rng3 cell.2).map (fun c => (r, c)))

/-- The in-bounds test 0 <= r < height and 0 <= c < width from add_knowledge. -/
def inB (ai : MinesweeperAI) (u : Cell) : Prop :=
  0 ≤ u.1 ∧ u.1 < ai.height ∧ 0 ≤ u.2 ∧ u.2 < ai.width

instance (ai : MinesweeperAI) (u : Cell) : Decidable (inB ai u) :=
  inferInstanceAs (Decidable (0 ≤ u.1 ∧ u.1 < ai.height ∧ 0 ≤ u.2 ∧ u.2 < ai.width))

/-- One iteration of the neighbor loop body in step 3 of add_knowledge: skip
the revealed cell and cells in safes; for a cell in mines decrement the local
count; otherwise add the cell to the new set when it is in bounds. -/
def addCellStep (ai : MinesweeperAI) (cell : Cell) (acc : Finset Cell × Int)
    (u_cell : Cell) : Finset Cell × Int :=
  if u_cell = cell ∨ u_cell ∈ ai.safes then acc
  else if u_cell ∈ ai.mines then (acc.1, acc.2 - 1)
  else if inB ai u_cell then (insert u_cell acc.1, acc.2)
  else acc

/-- Step 3 of add_knowledge: fold the neighbor loop body over the box around
the revealed cell, starting from the empty set and the reported count, and
build the new sentence from the result. -/
def MinesweeperAI.buildSentence (ai : MinesweeperAI) (cell : Cell) (count : Int) : Sentence :=
  let p := (boxCells cell).foldl (addCellStep ai cell) (∅, count)
  ⟨p.1, p.2⟩

/-- Steps 1 and 2 of add_knowledge: record the move and mark the cell safe
(which propagates to every sentence in knowledge). -/
def MinesweeperAI.step12 (ai : MinesweeperAI) (cell : Cell) : MinesweeperAI :=
  ({ ai with moves_made := insert cell ai.moves_made }).mark_safe cell

/-- Steps 1 to 3 of add_knowledge: after recording the move and marking the
cell safe, append the newly built sentence to knowledge. -/
def MinesweeperAI.stage3 (ai : MinesweeperAI) (cell : Cell) (count : Int) : MinesweeperAI :=
  let st2 := ai.step12 cell
  { st2 with knowledge := st2.knowledge ++ [st2.buildSentence cell count] }

/-- The first phase of the step 4 loop body for the sentence at one index: if
its known_mines set is non-empty, mark each of those cells as a mine (the
Python loop iterates over a copy of the set, so the fold runs over the
snapshot known_mines.val).  Out-of-range indices never occur in step 4; the
default sentence has empty known sets, making the phase a no-op there. -/
def step4Mine (st : MinesweeperAI) (idx : Nat) : MinesweeperAI :=
  if (st.knowledge.getD idx ⟨∅, 0⟩).known_mines ≠ ∅ then
    Multiset.foldl MinesweeperAI.mark_mine st (st.knowledge.getD idx ⟨∅, 0⟩).known_mines.val
  else st

/-- The second phase of the step 4 loop body: Python re-reads the very same
sentence object, which marking has mutated, so the phase looks up the sentence
at the same index of the updated state; if its known_safes set is non-empty,
mark each of those cells safe. -/
def step4Safe (st : MinesweeperAI) (idx : Nat) : MinesweeperAI :=
  if (st.knowledge.getD idx ⟨∅, 0⟩).known_safes ≠ ∅ then
    Multiset.foldl MinesweeperAI.mark_safe st (st.knowledge.getD idx ⟨∅, 0⟩).known_safes.val
  else st

/-- The body of step 4 of add_knowledge for the sentence at one index: the
mine phase followed by the safe phase on the updated state. -/
def step4At (st : MinesweeperAI) (idx : Nat) : MinesweeperAI :=
  step4Safe (step4Mine st idx) idx

/-- Step 4 of add_knowledge: one pass over the knowledge list (whose length is
unchanged by marking) applying step4At at every index in order. -/
def step4 (st : MinesweeperAI) : MinesweeperAI :=
  (List.range st.knowledge.length).foldl step4At st

/-- The candidate sentence derived by the subsumption step: the set difference
of the cells and the difference of the counts. -/
def derivedSentence (ns s : Sentence) : Sentence :=
  ⟨s.cells \ ns.cells, s.count - ns.count⟩

/-- The guard of the subsumption step: new_sentence.cells is a subset of the
sentence's cells, the sentence's count is positive, and the two sentences are
not structurally equal. -/
def trig (ns s : Sentence) : Prop :=
  ns.cells ⊆ s.cells ∧ 0 < s.count ∧ ns ≠ s

instance (ns s : Sentence) : Decidable (trig ns s) :=
  inferInstanceAs (Decidable (ns.cells ⊆ s.cells ∧ 0 < s.count ∧ ns ≠ s))

/-- The update of the knowledge list made by one iteration of the subsumption
loop when it visits the sentence s: when the guard holds and no structurally
equal sentence is already in the list, the derived candidate is appended. -/
def step5Upd (ns : Sentence) (kb : List Sentence) (s : Sentence) : List Sentence :=
  if trig ns s then
    (if derivedSentence ns s ∈ kb then kb else kb ++ [derivedSentence ns s])
  else kb

/-- Step 5 of add_knowledge: Python iterates over the knowledge list while
appending to it, so the iterator also visits the appended sentences.  This is
the index-based loop with explicit fuel: at index i it processes the current
element, then moves to index i + 1; it returns the final list once the index
reaches the length, and none when the fuel is exhausted first. -/
def step5Go : Nat → Sentence → List Sentence → Nat → Option (List Sentence)
  | 0, _, _, _ => none
  | fuel + 1, ns, kb, i =>
    if i < kb.length then
      step5Go fuel ns (step5Upd ns kb (kb.getD i ⟨∅, 0⟩)) (i + 1)
    else some kb

/-- The sentence object that step 5 compares against: the sentence appended in
step 3, as mutated by the marking of step 4 (in Python this is the very same
object new_sentence).  Step 4 preserves the list length, so it sits at the last
position of the knowledge list. -/
def MinesweeperAI.newSentence4 (ai : MinesweeperAI) (cell : Cell) (count : Int) : Sentence :=
  (step4 (ai.stage3 cell count)).knowledge.getLastD ⟨∅, 0⟩

/-- MinesweeperAI.add_knowledge, with explicit fuel for the step 5 loop:
returns the resulting agent state, or none when the fuel runs out before the
subsumption loop finishes. -/
def MinesweeperAI.add_knowledge (fuel : Nat) (ai : MinesweeperAI) (cell : Cell)
    (count : Int) : Option MinesweeperAI :=
  let st4 := step4 (ai.stage3 cell count)
  (step5Go fuel (ai.newSentence4 cell count) st4.knowledge 0).map
    (fun kb => { st4 with knowledge := kb })

/-- MinesweeperAI.make_safe_move: Python picks a uniformly random element of
safes - moves_made when that set is non-empty and returns None otherwise; the
random choice is modelled by an explicit pick function.  The Python method
reads but never assigns the tracked state, so the embedding is a pure function
of the agent state. -/
def MinesweeperAI.make_safe_move (pick : Finset Cell → Cell) (ai : MinesweeperAI) :
    Option Cell :=
  let moves := ai.safes \ ai.moves_made
  if moves.Nonempty then some (pick moves) else none

/-- Embedding of the board-side Minesweeper class: dimensions and the mine set
(board[i][j] is true exactly when (i, j) is in mines). -/
structure Minesweeper where
  height : Int
  width : Int
  mines : Finset Cell

/-- Minesweeper.nearby_mines: the number of in-bounds cells of the box around
the cell, other than the cell itself, that hold a mine. -/
def Minesweeper.nearby_mines (game : Minesweeper) (cell : Cell) : Nat :=
  ((boxCells cell).filter (fun u => decide (u ≠ cell ∧ 0 ≤ u.1 ∧ u.1 < game.height ∧
    0 ≤ u.2 ∧ u.2 < game.width ∧ u ∈ game.mines))).length

/-- The agent state of a run that returned none, defaulted to a zero-size
agent; used to state properties of concrete terminating runs without matching
on the Option. -/
def orInit (o : Option MinesweeperAI) : MinesweeperAI :=
  o.getD (MinesweeperAI.init 0 0)

/-- The sentence invariant stated by the spec: 0 <= count <= number of cells. -/
def sentenceInv (s : Sentence) : Prop :=
  0 ≤ s.count ∧ s.count ≤ (s.cells.card : Int)

instance (s : Sentence) : Decidable (sentenceInv s) :=
  inferInstanceAs (Decidable (0 ≤ s.count ∧ s.count ≤ (s.cells.card : Int)))

/-- One mutation of a single sentence: a mark_mine or a mark_safe call. -/
inductive SOp where
  | mm (cell : Cell)
  | ms (cell : Cell)

/-- Apply one mutation to a sentence. -/
def applySOp (s : Sentence) : SOp → Sentence
  | SOp.mm c => s.mark_mine c
  | SOp.ms c => s.mark_safe c

/-- Apply a sequence of mutations to a sentence, left to right. -/
def applySOps (s : Sentence) (ops : List SOp) : Sentence :=
  ops.foldl applySOp s

/-- The guard under which the sentence invariant survives a sequence of
mutations: each mark_mine is only applied when its cell, if present, leaves a
positive count, and each mark_safe only when its cell, if present, leaves a
count strictly below the cell count. -/
def guardedSOps : Sentence → List SOp → Bool
  | _, [] => true
  | s, SOp.mm c :: ops =>
    (decide (c ∈ s.cells → 1 ≤ s.count)) && guardedSOps (s.mark_mine c) ops
  | s, SOp.ms c :: ops =>
    (decide (c ∈ s.cells → s.count < (s.cells.card : Int))) && guardedSOps (s.mark_safe c) ops

/-- One public operation on the agent: an add_knowledge call (with fuel for
its subsumption loop), a mark_mine call or a mark_safe call. -/
inductive AIOp where
  | addK (cell : Cell) (count : Int) (fuel : Nat)
  | markM (cell : Cell)
  | markS (cell : Cell)

/-- Apply one public operation to the agent. -/
def applyAIOp (ai : MinesweeperAI) : AIOp → Option MinesweeperAI
  | AIOp.addK cell count fuel => MinesweeperAI.add_knowledge fuel ai cell count
  | AIOp.markM cell => some (ai.mark_mine cell)
  | AIOp.markS cell => some (ai.mark_safe cell)

/-- Run a sequence of public operations on the agent; none when some
add_knowledge call in the sequence ran out of fuel. -/
def runOps : MinesweeperAI → List AIOp → Option MinesweeperAI
  | ai, [] => some ai
  | ai, op :: ops =>
    match applyAIOp ai op with
    | none => none
    | some ai2 => runOps ai2 ops

/-- The tracked sets of the first state are contained in those of the second:
no element of mines, safes or moves_made has been lost. -/
def grows (a b : MinesweeperAI) : Prop :=
  a.mines ⊆ b.mines ∧ a.safes ⊆ b.safes ∧ a.moves_made ⊆ b.moves_made

/-- Stated from the claim C4's words, for comparison with the code: the cell
set of the new sentence as the claim describes it, the in-bounds box around
the cell minus the cell itself and minus the current safes and mines. -/
def claimedNewCells (ai : MinesweeperAI) (cell : Cell) : Finset Cell :=
  ((boxCells cell).filter
    (fun u => decide (u ≠ cell ∧ inB ai u ∧ u ∉ ai.safes ∧ u ∉ ai.mines))).toFinset

/-- Stated from the claim C4's words, for comparison with the code: the count
of the new sentence as the claim describes it, the given count minus the
number of in-bounds neighbors currently in mines. -/
def claimedNewCount (ai : MinesweeperAI) (cell : Cell) (count : Int) : Int :=
  count - ((boxCells cell).filter
    (fun u => decide (u ≠ cell ∧ inB ai u ∧ u ∈ ai.mines))).length

/-- The predicate under which the step 3 loop adds a box cell to the new set:
not the revealed cell, not known safe, not a known mine, and in bounds. -/
def keepCellB (ai : MinesweeperAI) (cell : Cell) (u : Cell) : Bool :=
  decide (u ≠ cell ∧ u ∉ ai.safes ∧ u ∉ ai.mines ∧ inB ai u)

/-- The predicate under which the step 3 loop decrements the local count: not
the revealed cell, not known safe, and a known mine, in bounds or not. -/
def mineHitB (ai : MinesweeperAI) (cell : Cell) (u : Cell) : Bool :=
  decide (u ≠ cell ∧ u ∉ ai.safes ∧ u ∈ ai.mines)

/-- The count the code actually computes in step 3: the given count minus the
number of box neighbors, in bounds or not, that are in mines and not in safes. -/
def actualNewCount (ai : MinesweeperAI) (cell : Cell) (count : Int) : Int :=
  count - ((boxCells cell).filter (mineHitB ai cell)).length

/-- The number of appends the subsumption loop can still generate from one
sentence: with an empty new sentence of positive count c the counts of the
derived chain decrease by c per append, hence the rounded-up quotient; with a
non-empty new sentence a single append is possible at most. -/
def chainF (ns s : Sentence) : Nat :=
  if ns.cells = ∅ then
    (if 0 < ns.count then (s.count.toNat + ns.count.toNat - 1) / ns.count.toNat else 0)
  else (if ns.cells ⊆ s.cells then 1 else 0)

/-- Termination measure of the subsumption loop: the loop is bounded by the
weights of the not-yet-visited part of the knowledge list. -/
def step5Measure (ns : Sentence) (kb : List Sentence) (i : Nat) : Nat :=
  ((kb.drop i).map (fun s => 1 + chainF ns s)).sum

/-- Some fuel suffices for the add_knowledge call to return. -/
def terminatesOn (ai : MinesweeperAI) (cell : Cell) (count : Int) : Prop :=
  ∃ fuel st', MinesweeperAI.add_knowledge fuel ai cell count = some st'

/-- Agent state on a 1 x 1 board with an out-of-bounds mine recorded and one
positive sentence in knowledge; calling add_knowledge((0,0), 0) here builds
the new sentence (empty set, -1) and the subsumption loop then appends
(empty set, 2), (empty set, 3), ... without end. -/
def c10State : MinesweeperAI :=
  ⟨1, 1, ∅, {(0, 1)}, ∅, [⟨{(0, 0)}, 1⟩]⟩

/-- The knowledge list reached by the diverging subsumption loop of c10State
after the first m + 1 appends. -/
def badKB (m : Nat) : List Sentence :=
  [⟨∅, 1⟩, ⟨∅, -1⟩] ++ (List.range (m + 1)).map (fun t => ⟨∅, (t : Int) + 2⟩)

/-- The three-call honest trace on a 3 x 3 board with a mine at (2,1): reveal
(0,1) with count 0, (1,1) with count 1, then (1,0) with count 1. -/
def c1run : Option MinesweeperAI :=
  (MinesweeperAI.add_knowledge 32 (MinesweeperAI.init 3 3) (0, 1) 0).bind
    (fun a => (MinesweeperAI.add_knowledge 32 a (1, 1) 1).bind
      (fun b => MinesweeperAI.add_knowledge 32 b (1, 0) 1))

/-- The single-call run of claim C9: a fresh 3 x 3 agent revealing the corner
(2,2) with count 0. -/
def c9run : Option MinesweeperAI :=
  MinesweeperAI.add_knowledge 9 (MinesweeperAI.init 3 3) (2, 2) 0

theorem sentenceInv_mark_mine (s : Sentence) (c : Cell)
    (h0 : sentenceInv s) (hg : c ∈ s.cells → 1 ≤ s.count) :
    sentenceInv (s.mark_mine c) := by
  unfold Sentence.mark_mine
  by_cases hc : c ∈ s.cells
  · rw [if_pos hc]
    have hpos : 1 ≤ s.cells.card := Finset.card_pos.2 ⟨c, hc⟩
    have hcard : (s.cells.erase c).card = s.cells.card - 1 := Finset.card_erase_of_mem hc
    refine ⟨?_, ?_⟩
    · show (0 : Int) ≤ s.count - 1
      have := hg hc
      omega
    · show s.count - 1 ≤ ((s.cells.erase c).card : Int)
      have h2 := h0.2
      rw [hcard, Nat.cast_sub hpos]
      omega
  · rw [if_neg hc]; exact h0

theorem sentenceInv_mark_safe (s : Sentence) (c : Cell)
    (h0 : sentenceInv s) (hg : c ∈ s.cells → s.count < (s.cells.card : Int)) :
    sentenceInv (s.mark_safe c) := by
  unfold Sentence.mark_safe
  by_cases hc : c ∈ s.cells
  · rw [if_pos hc]
    have hpos : 1 ≤ s.cells.card := Finset.card_pos.2 ⟨c, hc⟩
    have hcard : (s.cells.erase c).card = s.cells.card - 1 := Finset.card_erase_of_mem hc
    refine ⟨h0.1, ?_⟩
    show s.count ≤ ((s.cells.erase c).card : Int)
    have h2 := hg hc
    rw [hcard, Nat.cast_sub hpos]
    omega
  · rw [if_neg hc]; exact h0

/-- C2 counterexample: the invariant 0 <= count <= number of cells holds for
the sentence ({(0,0)}, 0), yet after the single mark_mine((0,0)) call of the
sequence it fails, since the count drops to -1. -/
theorem c2_counterexample :
    sentenceInv ⟨{(0, 0)}, 0⟩ ∧
    ¬ sentenceInv (applySOps ⟨{(0, 0)}, 0⟩ [SOp.mm (0, 0)]) := by
  decide

/-- C2 amended: for every sentence and every guarded sequence of mark_mine and
mark_safe calls (mark_mine only when the marked cell, if present, leaves a
nonnegative count; mark_safe only when the marked cell, if present, leaves the
count at most the remaining cell count), the invariant 0 <= count <= number of
cells holds after every prefix of the sequence, given it held initially. -/
theorem c2_sentence_invariant (s : Sentence) (ops : List SOp)
    (h0 : sentenceInv s) (hg : guardedSOps s ops = true) :
    ∀ n, sentenceInv (applySOps s (ops.take n)) := by
  induction ops generalizing s with
  | nil =>
    intro n
    simpa [applySOps] using h0
  | cons op ops ih =>
    intro n
    cases n with
    | zero => simpa [applySOps] using h0
    | succ n =>
      cases op with
      | mm c =>
        have hg2 : (c ∉ s.cells ∨ 1 ≤ s.count) ∧ guardedSOps (s.mark_mine c) ops = true := by
          simpa [guardedSOps, Bool.and_eq_true, decide_eq_true_iff] using hg
        have hstep : sentenceInv (s.mark_mine c) :=
          sentenceInv_mark_mine s c h0 (fun hc => hg2.1.resolve_left (fun h => h hc))
        have := ih (s.mark_mine c) hstep hg2.2 n
        simpa [applySOps, List.take, List.foldl_cons, applySOp] using this
      | ms c =>
        have hg2 : (c ∉ s.cells ∨ s.count < (s.cells.card : Int)) ∧
            guardedSOps (s.mark_safe c) ops = true := by
          simpa [guardedSOps, Bool.and_eq_true, decide_eq_true_iff] using hg
        have hstep : sentenceInv (s.mark_safe c) :=
          sentenceInv_mark_safe s c h0 (fun hc => hg2.1.resolve_left (fun h => h hc))
        have := ih (s.mark_safe c) hstep hg2.2 n
        simpa [applySOps, List.take, List.foldl_cons, applySOp] using this

/-- C2 witness: a concrete guarded sequence on ({(0,0),(0,1)}, 1), marking
(0,0) as a mine then (0,1) as safe, keeps the invariant. -/
theorem c2_witness :
    sentenceInv (applySOps ⟨{(0, 0), (0, 1)}, 1⟩ ([SOp.mm (0, 0), SOp.ms (0, 1)].take 2)) :=
  c2_sentence_invariant ⟨{(0, 0), (0, 1)}, 1⟩ [SOp.mm (0, 0), SOp.ms (0, 1)]
    (by decide) (by decide) 2

/-- C7: known_mines returns the full cell set when count equals the number of
cells and is nonzero, and the empty set in every other case.  The embedding is
a pure function of the sentence, so the call does not modify the sentence. -/
theorem c7_known_mines_spec (s : Sentence) :
    (s.count = (s.cells.card : Int) ∧ s.count ≠ 0 → s.known_mines = s.cells) ∧
    (¬(s.count = (s.cells.card : Int) ∧ s.count ≠ 0) → s.known_mines = ∅) := by
  unfold Sentence.known_mines
  constructor
  · intro h
    rw [if_pos ⟨h.1.symm, h.2⟩]
  · intro h
    rw [if_neg]
    intro hc
    exact h ⟨hc.1.symm, hc.2⟩

/-- C7 witness: both branches at concrete sentences, the full-set case on
({(0,0),(0,1)}, 2) and the empty case on ({(0,0)}, 0). -/
theorem c7_witness :
    Sentence.known_mines ⟨{(0, 0), (0, 1)}, 2⟩ = {(0, 0), (0, 1)} ∧
    Sentence.known_mines ⟨{(0, 0)}, 0⟩ = ∅ :=
  ⟨(c7_known_mines_spec ⟨{(0, 0), (0, 1)}, 2⟩).1 (by decide),
   (c7_known_mines_spec ⟨{(0, 0)}, 0⟩).2 (by decide)⟩

/-- C8: for any pick function that returns an element of the non-empty set it
is given, make_safe_move returns some cell of safes minus moves_made when that
set is non-empty and none when it is empty; the embedding is a pure function
of the agent state, so no tracked state changes. -/
theorem c8_make_safe_move_spec (pick : Finset Cell → Cell) (ai : MinesweeperAI)
    (hpick : (ai.safes \ ai.moves_made).Nonempty →
      pick (ai.safes \ ai.moves_made) ∈ ai.safes \ ai.moves_made) :
    ((ai.safes \ ai.moves_made).Nonempty →
      ∃ c, MinesweeperAI.make_safe_move pick ai = some c ∧ c ∈ ai.safes ∧ c ∉ ai.moves_made) ∧
    (¬(ai.safes \ ai.moves_made).Nonempty →
      MinesweeperAI.make_safe_move pick ai = none) := by
  unfold MinesweeperAI.make_safe_move
  constructor
  · intro h
    rw [if_pos h]
    rcases Finset.mem_sdiff.1 (hpick h) with ⟨h1, h2⟩
    exact ⟨_, rfl, h1, h2⟩
  · intro h
    rw [if_neg h]

/-- C8 witness: a concrete agent with safes {(0,0)} and no move made, and the
constant pick of (0,0), returns some (0,0). -/
theorem c8_witness :
    ∃ c, MinesweeperAI.make_safe_move (fun _ => (0, 0)) ⟨2, 2, ∅, ∅, {(0, 0)}, []⟩ = some c ∧
      c ∈ (⟨2, 2, ∅, ∅, {(0, 0)}, []⟩ : MinesweeperAI).safes ∧
      c ∉ (⟨2, 2, ∅, ∅, {(0, 0)}, []⟩ : MinesweeperAI).moves_made :=
  (c8_make_safe_move_spec (fun _ => (0, 0)) ⟨2, 2, ∅, ∅, {(0, 0)}, []⟩
    (fun _ => by decide)).1 (by decide)

/-- C1: on the honest trace of three add_knowledge calls on a 3 x 3 board with
one mine at (2,1), every call returns, yet the final knowledge contains the
sentence ({(2,2)}, 0) whose known_safes is {(2,2)} while (2,2) is not in
safes: the knowledge base is not saturated when add_knowledge returns, and a
further scan would still mark (2,2) safe. -/
theorem c1_not_saturated :
    c1run.isSome = true ∧
    (⟨{(2, 2)}, 0⟩ : Sentence) ∈ (orInit c1run).knowledge ∧
    Sentence.known_safes ⟨{(2, 2)}, 0⟩ = {(2, 2)} ∧
    ((2, 2) : Cell) ∉ (orInit c1run).safes := by
  refine ⟨rfl, by decide, by decide, by decide⟩

/-- C9 counterexample: (3,3) is one of the 8 box neighbors of the corner cell
(2,2) of the 3 x 3 board, yet after add_knowledge((2,2), 0) it is not in
safes, so not all 8 neighbors of (2,2) are marked safe. -/
theorem c9_counterexample :
    ((3, 3) : Cell) ∈ boxCells (2, 2) ∧ ((3, 3) : Cell) ≠ (2, 2) ∧
    c9run.isSome = true ∧ ((3, 3) : Cell) ∉ (orInit c9run).safes := by
  refine ⟨by decide, by decide, rfl, by decide⟩

/-- C9 amended: on the 3 x 3 board with its only mine at (0,0), the revealed
corner (2,2) has nearby count 0, and a single add_knowledge((2,2), 0) call on
a fresh agent returns with all three in-bounds neighbors of (2,2), namely
(1,1), (1,2) and (2,1), in safes. -/
theorem c9_all_inbounds_neighbors_safe :
    Minesweeper.nearby_mines ⟨3, 3, {(0, 0)}⟩ (2, 2) = 0 ∧
    c9run.isSome = true ∧
    ({(1, 1), (1, 2), (2, 1)} : Finset Cell) ⊆ (orInit c9run).safes := by
  refine ⟨by decide, rfl, by decide⟩

/-- C4 counterexample: on a 1 x 1 board with the out-of-bounds cell (0,1)
recorded in mines, add_knowledge((0,0), 0) builds the sentence (empty, -1):
the code decremented for the out-of-bounds mine neighbor, while the claimed
count (the given 0 minus the zero in-bounds mine neighbors) is 0. -/
theorem c4_counterexample :
    (((⟨1, 1, ∅, {(0, 1)}, ∅, []⟩ : MinesweeperAI).step12 (0, 0)).buildSentence (0, 0) 0).count = -1 ∧
    claimedNewCount ((⟨1, 1, ∅, {(0, 1)}, ∅, []⟩ : MinesweeperAI).step12 (0, 0)) (0, 0) 0 = 0 := by
  decide

/-- C5: the code continues silently on invariant violations: mark_mine on the
invariant-satisfying sentence ({(0,0)}, 0) yields (empty, -1) and returns it
as an ordinary value, and the subsumption step derives and appends the
negative-count sentence ({(0,1)}, -1) to knowledge, in both cases with no
fault value raised or reported. -/
theorem c5_silent_continuation :
    Sentence.mark_mine ⟨{(0, 0)}, 0⟩ (0, 0) = ⟨∅, -1⟩ ∧
    (step5Go 9 ⟨{(0, 0)}, 2⟩ [⟨{(0, 0), (0, 1)}, 1⟩, ⟨{(0, 0)}, 2⟩] 0).isSome = true ∧
    (⟨{(0, 1)}, -1⟩ : Sentence) ∈
      (step5Go 9 ⟨{(0, 0)}, 2⟩ [⟨{(0, 0), (0, 1)}, 1⟩, ⟨{(0, 0)}, 2⟩] 0).getD [] := by
  refine ⟨by decide, rfl, by decide⟩

/-- C6 counterexample: the public-call sequence mark_mine((0,0)) then
mark_safe((0,0)) on a fresh agent puts (0,0) in both mines and safes, so the
two sets are not disjoint at every point of every call sequence. -/
theorem c6_counterexample :
    (runOps (MinesweeperAI.init 1 1) [AIOp.markM (0, 0), AIOp.markS (0, 0)]).isSome = true ∧
    ((0, 0) : Cell) ∈
      (orInit (runOps (MinesweeperAI.init 1 1) [AIOp.markM (0, 0), AIOp.markS (0, 0)])).mines ∧
    ((0, 0) : Cell) ∈
      (orInit (runOps (MinesweeperAI.init 1 1) [AIOp.markM (0, 0), AIOp.markS (0, 0)])).safes := by
  refine ⟨rfl, by decide, by decide⟩

theorem grows_refl (a : MinesweeperAI) : grows a a :=
  ⟨Finset.Subset.refl _, Finset.Subset.refl _, Finset.Subset.refl _⟩

theorem grows_trans {a b c : MinesweeperAI} (h1 : grows a b) (h2 : grows b c) : grows a c :=
  ⟨h1.1.trans h2.1, h1.2.1.trans h2.2.1, h1.2.2.trans h2.2.2⟩

theorem grows_ite {c : Prop} [Decidable c] {a b1 b2 : MinesweeperAI}
    (h1 : c → grows a b1) (h2 : ¬c → grows a b2) : grows a (if c then b1 else b2) := by
  by_cases h : c
  · rw [if_pos h]; exact h1 h
  · rw [if_neg h]; exact h2 h

theorem grows_mark_mine (ai : MinesweeperAI) (c : Cell) : grows ai (ai.mark_mine c) :=
  ⟨Finset.subset_insert _ _, Finset.Subset.refl _, Finset.Subset.refl _⟩

theorem grows_mark_safe (ai : MinesweeperAI) (c : Cell) : grows ai (ai.mark_safe c) :=
  ⟨Finset.Subset.refl _, Finset.subset_insert _ _, Finset.Subset.refl _⟩

theorem grows_mfoldl (f : MinesweeperAI → Cell → MinesweeperAI) [RightCommutative f]
    (hf : ∀ a b, grows a (f a b)) (m : Multiset Cell) :
    ∀ a, grows a (Multiset.foldl f a m) := by
  induction m using Multiset.induction_on with
  | empty => intro a; simpa using grows_refl a
  | cons x s ih =>
    intro a
    rw [Multiset.foldl_cons]
    exact grows_trans (hf a x) (ih (f a x))

theorem grows_step4Mine (st : MinesweeperAI) (idx : Nat) : grows st (step4Mine st idx) :=
  grows_ite (fun _ => grows_mfoldl _ grows_mark_mine _ st) (fun _ => grows_refl st)

theorem grows_step4Safe (st : MinesweeperAI) (idx : Nat) : grows st (step4Safe st idx) :=
  grows_ite (fun _ => grows_mfoldl _ grows_mark_safe _ st) (fun _ => grows_refl st)

theorem grows_step4At (st : MinesweeperAI) (idx : Nat) : grows st (step4At st idx) :=
  grows_trans (grows_step4Mine st idx) (grows_step4Safe (step4Mine st idx) idx)

theorem grows_foldl_list {β : Type} (f : MinesweeperAI → β → MinesweeperAI)
    (hf : ∀ a b, grows a (f a b)) (l : List β) : ∀ a, grows a (l.foldl f a) := by
  induction l with
  | nil => intro a; exact grows_refl a
  | cons x xs ih => intro a; exact grows_trans (hf a x) (ih (f a x))

theorem grows_step4 (st : MinesweeperAI) : grows st (step4 st) :=
  grows_foldl_list step4At grows_step4At _ st

theorem grows_stage3 (ai : MinesweeperAI) (cell : Cell) (count : Int) :
    grows ai (ai.stage3 cell count) :=
  ⟨Finset.Subset.refl _, Finset.subset_insert _ _, Finset.subset_insert _ _⟩

theorem add_knowledge_grows (fuel : Nat) (ai : MinesweeperAI) (cell : Cell) (count : Int)
    (st' : MinesweeperAI) (h : MinesweeperAI.add_knowledge fuel ai cell count = some st') :
    grows ai st' := by
  simp only [MinesweeperAI.add_knowledge] at h
  cases h5 : step5Go fuel (ai.newSentence4 cell count) (step4 (ai.stage3 cell count)).knowledge 0 with
  | none =>
    rw [h5] at h
    cases h
  | some kb =>
    rw [h5] at h
    have heq : { step4 (ai.stage3 cell count) with knowledge := kb } = st' := Option.some.inj h
    subst heq
    have g4 := grows_trans (grows_stage3 ai cell count) (grows_step4 (ai.stage3 cell count))
    exact ⟨g4.1, g4.2.1, g4.2.2⟩

/-- C6 amended: across every sequence of add_knowledge, mark_mine and
mark_safe calls that returns, the sets mines, safes and moves_made never lose
an element.  (The disjointness half of the claim fails, see the
counterexample: a mark_mine call followed by a mark_safe call on the same cell
puts it in both sets.) -/
theorem c6_monotonicity (ai : MinesweeperAI) (ops : List AIOp) (ai' : MinesweeperAI)
    (h : runOps ai ops = some ai') : grows ai ai' := by
  induction ops generalizing ai with
  | nil =>
    have : ai = ai' := by simpa [runOps] using h
    subst this
    exact grows_refl ai
  | cons op ops ih =>
    unfold runOps at h
    cases hop : applyAIOp ai op with
    | none => rw [hop] at h; cases h
    | some ai2 =>
      rw [hop] at h
      have g1 : grows ai ai2 := by
        cases op with
        | addK cell count fuel =>
          exact add_knowledge_grows fuel ai cell count ai2 hop
        | markM c =>
          have := Option.some.inj hop
          subst this
          exact grows_mark_mine ai c
        | markS c =>
          have := Option.some.inj hop
          subst this
          exact grows_mark_safe ai c
      exact grows_trans g1 (ih ai2 h)

/-- C6 witness: a concrete returning sequence, a mark_mine((0,1)) call then an
add_knowledge((0,0), 0) call on a fresh 1 x 1 agent, loses no element. -/
theorem c6_witness :
    grows (MinesweeperAI.init 1 1)
      (orInit (runOps (MinesweeperAI.init 1 1) [AIOp.markM (0, 1), AIOp.addK (0, 0) 0 3])) :=
  c6_monotonicity (MinesweeperAI.init 1 1) [AIOp.markM (0, 1), AIOp.addK (0, 0) 0 3]
    (orInit (runOps (MinesweeperAI.init 1 1) [AIOp.markM (0, 1), AIOp.addK (0, 0) 0 3]))
    (by rfl)

theorem buildFold_spec (ai : MinesweeperAI) (cell : Cell) (L : List Cell) :
    ∀ (acc : Finset Cell) (c : Int),
      L.foldl (addCellStep ai cell) (acc, c) =
        (acc ∪ (L.filter (keepCellB ai cell)).toFinset,
         c - (L.filter (mineHitB ai cell)).length) := by
  induction L with
  | nil =>
    intro acc c
    simp
  | cons u L ih =>
    intro acc c
    rw [List.foldl_cons]
    by_cases h1 : u = cell ∨ u ∈ ai.safes
    · have e1 : addCellStep ai cell (acc, c) u = (acc, c) := by
        rw [addCellStep, if_pos h1]
      have hk : ¬ keepCellB ai cell u = true := by
        simp only [keepCellB, decide_eq_true_iff]
        tauto
      have hm : ¬ mineHitB ai cell u = true := by
        simp only [mineHitB, decide_eq_true_iff]
        tauto
      rw [e1, ih]
      simp [List.filter_cons, hk, hm]
    · by_cases h2 : u ∈ ai.mines
      · have e1 : addCellStep ai cell (acc, c) u = (acc, c - 1) := by
          rw [addCellStep, if_neg h1, if_pos h2]
        have hk : ¬ keepCellB ai cell u = true := by
          simp only [keepCellB, decide_eq_true_iff]
          tauto
        have hm : mineHitB ai cell u = true := by
          simp only [mineHitB, decide_eq_true_iff]
          tauto
        rw [e1, ih]
        simp only [List.filter_cons, hk, hm, if_pos, if_neg, if_true, if_false,
          List.length_cons, Prod.mk.injEq]
        refine ⟨rfl, ?_⟩
        push_cast
        ring
      · by_cases h3 : inB ai u
        · have e1 : addCellStep ai cell (acc, c) u = (insert u acc, c) := by
            rw [addCellStep, if_neg h1, if_neg h2, if_pos h3]
          have hk : keepCellB ai cell u = true := by
            simp only [keepCellB, decide_eq_true_iff]
            tauto
          have hm : ¬ mineHitB ai cell u = true := by
            simp only [mineHitB, decide_eq_true_iff]
            tauto
          rw [e1, ih]
          simp only [List.filter_cons, hk, hm, if_pos, if_neg, if_true, if_false,
            List.toFinset_cons, Prod.mk.injEq]
          refine ⟨?_, rfl⟩
          rw [Finset.insert_union, Finset.union_insert]
        · have e1 : addCellStep ai cell (acc, c) u = (acc, c) := by
            rw [addCellStep, if_neg h1, if_neg h2, if_neg h3]
          have hk : ¬ keepCellB ai cell u = true := by
            simp only [keepCellB, decide_eq_true_iff]
            tauto
          have hm : ¬ mineHitB ai cell u = true := by
            simp only [mineHitB, decide_eq_true_iff]
            tauto
          rw [e1, ih]
          simp [List.filter_cons, hk, hm]

/-- C4 amended: in step 3 the appended sentence's cell set is exactly the
in-bounds box around the revealed cell minus the cell itself, minus the
current safes and mines (so no out-of-bounds coordinate ever appears in it),
but its count is the given count minus the number of box neighbors, in bounds
or not, that are in mines and not in safes - not merely the in-bounds mine
neighbors as the claim states. -/
theorem c4_new_sentence_spec (ai : MinesweeperAI) (cell : Cell) (count : Int) :
    (MinesweeperAI.buildSentence ai cell count).cells = claimedNewCells ai cell ∧
    (MinesweeperAI.buildSentence ai cell count).count = actualNewCount ai cell count ∧
    ∀ u ∈ (MinesweeperAI.buildSentence ai cell count).cells, inB ai u := by
  have hb := buildFold_spec ai cell (boxCells cell) ∅ count
  have hcells : (MinesweeperAI.buildSentence ai cell count).cells =
      ((boxCells cell).filter (keepCellB ai cell)).toFinset := by
    show ((boxCells cell).foldl (addCellStep ai cell) (∅, count)).1 = _
    rw [hb, Finset.empty_union]
  refine ⟨?_, ?_, ?_⟩
  · rw [hcells]
    unfold claimedNewCells
    congr 1
    apply List.filter_congr
    intro u hu
    rw [keepCellB, decide_eq_decide]
    tauto
  · show ((boxCells cell).foldl (addCellStep ai cell) (∅, count)).2 = _
    rw [hb]
    rfl
  · intro u hu
    rw [hcells] at hu
    rw [List.mem_toFinset, List.mem_filter, keepCellB, decide_eq_true_iff] at hu
    exact hu.2.2.2.2

theorem step5Go_succ (fuel : Nat) (ns : Sentence) (kb : List Sentence) (i : Nat) :
    step5Go (fuel + 1) ns kb i =
      if i < kb.length then step5Go fuel ns (step5Upd ns kb (kb.getD i ⟨∅, 0⟩)) (i + 1)
      else some kb := rfl

theorem step5Upd_cases (ns : Sentence) (kb : List Sentence) (s : Sentence) :
    step5Upd ns kb s = kb ∨
    (step5Upd ns kb s = kb ++ [derivedSentence ns s] ∧ trig ns s ∧
      derivedSentence ns s ∉ kb) := by
  unfold step5Upd
  by_cases h1 : trig ns s
  · rw [if_pos h1]
    by_cases h2 : derivedSentence ns s ∈ kb
    · rw [if_pos h2]; left; rfl
    · rw [if_neg h2]; right; exact ⟨rfl, h1, h2⟩
  · rw [if_neg h1]; left; rfl

theorem derived_mem_step5Upd (ns : Sentence) (kb : List Sentence) (s : Sentence)
    (h1 : trig ns s) : derivedSentence ns s ∈ step5Upd ns kb s := by
  unfold step5Upd
  rw [if_pos h1]
  by_cases h2 : derivedSentence ns s ∈ kb
  · rw [if_pos h2]; exact h2
  · rw [if_neg h2]
    exact List.mem_append_right kb (List.mem_singleton.2 rfl)

theorem get?_eq_some_getD {l : List Sentence} {i : Nat} (h : i < l.length) :
    l.get? i = some (l.getD i ⟨∅, 0⟩) := by
  rw [List.getD_eq_get?, List.get?_eq_get h]
  rfl

theorem step5Go_spec (fuel : Nat) :
    ∀ (ns : Sentence) (kb : List Sentence) (i : Nat) (kb' : List Sentence),
    step5Go fuel ns kb i = some kb' →
    (∃ app, kb' = kb ++ app) ∧
    (∀ idx s, i ≤ idx → kb'.get? idx = some s → trig ns s → derivedSentence ns s ∈ kb') ∧
    (∀ n s, kb.length ≤ n → kb'.get? n = some s →
      (∃ t, t ∈ kb' ∧ trig ns t ∧ s = derivedSentence ns t) ∧ s ∉ kb'.take n) := by
  induction fuel with
  | zero =>
    intro ns kb i kb' h
    cases h
  | succ fuel ih =>
    intro ns kb i kb' h
    rw [step5Go_succ] at h
    by_cases hlen : i < kb.length
    · rw [if_pos hlen] at h
      obtain ⟨⟨app1, happ1⟩, P2, P3⟩ := ih ns (step5Upd ns kb (kb.getD i ⟨∅, 0⟩)) (i + 1) kb' h
      have hmemi : kb.getD i ⟨∅, 0⟩ ∈ kb := List.get?_mem (get?_eq_some_getD hlen)
      rcases step5Upd_cases ns kb (kb.getD i ⟨∅, 0⟩) with hU | ⟨hU, htrig0, hnot0⟩
      · -- no append at this step
        rw [hU] at happ1 P3
        refine ⟨⟨app1, happ1⟩, ?_, P3⟩
        intro idx s hidx hget htrig
        rcases Nat.lt_or_ge idx (i + 1) with hlt | hge
        · have hidx_eq : idx = i := by omega
          subst hidx_eq
          have hpre : kb'.get? idx = kb.get? idx := by
            rw [happ1]
            exact List.get?_append hlen
          have hs : s = kb.getD idx ⟨∅, 0⟩ := by
            rw [hpre, get?_eq_some_getD hlen] at hget
            exact (Option.some.inj hget).symm
          have hd : derivedSentence ns s ∈ step5Upd ns kb (kb.getD idx ⟨∅, 0⟩) := by
            rw [hs]
            exact derived_mem_step5Upd ns kb _ (hs ▸ htrig)
          rw [hU] at hd
          rw [happ1]
          exact List.mem_append_left app1 hd
        · exact P2 idx s hge hget htrig
      · -- this step appended the derived sentence
        have hkb' : kb' = kb ++ ([derivedSentence ns (kb.getD i ⟨∅, 0⟩)] ++ app1) := by
          rw [← List.append_assoc, ← hU, happ1]
        refine ⟨⟨[derivedSentence ns (kb.getD i ⟨∅, 0⟩)] ++ app1, hkb'⟩, ?_, ?_⟩
        · intro idx s hidx hget htrig
          rcases Nat.lt_or_ge idx (i + 1) with hlt | hge
          · have hidx_eq : idx = i := by omega
            subst hidx_eq
            have hpre : kb'.get? idx = kb.get? idx := by
              rw [hkb']
              exact List.get?_append hlen
            have hs : s = kb.getD idx ⟨∅, 0⟩ := by
              rw [hpre, get?_eq_some_getD hlen] at hget
              exact (Option.some.inj hget).symm
            have hd : derivedSentence ns s ∈ step5Upd ns kb (kb.getD idx ⟨∅, 0⟩) := by
              rw [hs]
              exact derived_mem_step5Upd ns kb _ (hs ▸ htrig)
            rw [hU] at hd
            rw [hkb']
            rcases List.mem_append.1 hd with hin | hin
            · exact List.mem_append_left _ hin
            · exact List.mem_append_right _ (List.mem_append_left _ hin)
          · exact P2 idx s hge hget htrig
        · intro n s hn hget
          rcases Nat.lt_or_ge n (kb.length + 1) with hlt | hge
          · have hn_eq : n = kb.length := by omega
            have hget2 : kb'.get? n = some (derivedSentence ns (kb.getD i ⟨∅, 0⟩)) := by
              rw [hn_eq, hkb', List.get?_append_right (Nat.le_refl _)]
              simp
            have hs : s = derivedSentence ns (kb.getD i ⟨∅, 0⟩) := by
              rw [hget2] at hget
              exact (Option.some.inj hget).symm
            constructor
            · refine ⟨kb.getD i ⟨∅, 0⟩, ?_, htrig0, hs⟩
              rw [hkb']
              exact List.mem_append_left _ hmemi
            · have htake : kb'.take n = kb := by
                rw [hn_eq, hkb']
                exact List.take_left kb _
              rw [htake, hs]
              exact hnot0
          · have hlen2 : (step5Upd ns kb (kb.getD i ⟨∅, 0⟩)).length = kb.length + 1 := by
              rw [hU]
              simp
            exact P3 n s (by omega) hget
    · rw [if_neg hlen] at h
      have hkb : kb = kb' := Option.some.inj h
      subst hkb
      have hnone : ∀ m : Nat, kb.length ≤ m → kb.get? m = none := fun m hm =>
        List.get?_eq_none.2 hm
      refine ⟨⟨[], (List.append_nil kb).symm⟩, ?_, ?_⟩
      · intro idx s hidx hget htrig
        rw [hnone idx (by omega)] at hget
        cases hget
      · intro n s hn hget
        rw [hnone n hn] at hget
        cases hget

/-- C3: characterization of the terminating subsumption loop.  When the loop
returns, (1) the final knowledge extends the initial one (nothing is removed),
(2) for every sentence s of the final knowledge with new_sentence.cells a
subset of s.cells, s.count positive and s not structurally equal to
new_sentence, the candidate with cells s.cells minus new_sentence.cells and
count s.count minus new_sentence.count is in the final knowledge, (3) every
sentence the step appended is such a candidate for some triggering sentence of
the final knowledge, and (4) each appended entry is structurally distinct from
everything before it in the list, since an append happens only when no equal
sentence is already present. -/
theorem c3_subsumption_spec (fuel : Nat) (ns : Sentence) (kb kb' : List Sentence)
    (h : step5Go fuel ns kb 0 = some kb') :
    (∃ app, kb' = kb ++ app) ∧
    (∀ s ∈ kb', trig ns s → derivedSentence ns s ∈ kb') ∧
    (∀ d ∈ kb', d ∉ kb → ∃ t, t ∈ kb' ∧ trig ns t ∧ d = derivedSentence ns t) ∧
    (∀ n d, kb.length ≤ n → kb'.get? n = some d → d ∉ kb'.take n) := by
  obtain ⟨P1, P2, P3⟩ := step5Go_spec fuel ns kb 0 kb' h
  refine ⟨P1, ?_, ?_, ?_⟩
  · intro s hs htrig
    obtain ⟨idx, hidx⟩ := List.mem_iff_get?.1 hs
    exact P2 idx s (Nat.zero_le idx) hidx htrig
  · intro d hd hnot
    obtain ⟨n, hn⟩ := List.mem_iff_get?.1 hd
    by_cases hcase : n < kb.length
    · exfalso
      obtain ⟨app, happ⟩ := P1
      rw [happ, List.get?_append hcase] at hn
      exact hnot (List.get?_mem hn)
    · obtain ⟨⟨t, ht, htrig, hd_eq⟩, _⟩ := P3 n d (Nat.le_of_not_lt hcase) hn
      exact ⟨t, ht, htrig, hd_eq⟩
  · intro n d hn hget
    exact (P3 n d hn hget).2

/-- C3 witness: the scenario with knowledge [({(0,0),(0,1),(0,2)}, 1), ns] and
new sentence ns = ({(0,0),(0,1)}, 1): the loop returns and the derived
candidate ({(0,2)}, 0) is in the final knowledge. -/
theorem c3_witness :
    derivedSentence ⟨{(0, 0), (0, 1)}, 1⟩ ⟨{(0, 0), (0, 1), (0, 2)}, 1⟩ ∈
      (step5Go 9 ⟨{(0, 0), (0, 1)}, 1⟩
        [⟨{(0, 0), (0, 1), (0, 2)}, 1⟩, ⟨{(0, 0), (0, 1)}, 1⟩] 0).getD [] :=
  (c3_subsumption_spec 9 ⟨{(0, 0), (0, 1)}, 1⟩
      [⟨{(0, 0), (0, 1), (0, 2)}, 1⟩, ⟨{(0, 0), (0, 1)}, 1⟩]
      ((step5Go 9 ⟨{(0, 0), (0, 1)}, 1⟩
        [⟨{(0, 0), (0, 1), (0, 2)}, 1⟩, ⟨{(0, 0), (0, 1)}, 1⟩] 0).getD [])
      (by rfl)).2.1
    ⟨{(0, 0), (0, 1), (0, 2)}, 1⟩ (by decide) (by decide)

theorem badKB_length (m : Nat) : (badKB m).length = m + 3 := by
  unfold badKB
  simp

theorem badKB_getD (m : Nat) :
    (badKB m).getD (m + 2) ⟨∅, 0⟩ = ⟨∅, (m : Int) + 2⟩ := by
  have hB : ((List.range (m + 1)).map
      (fun (t : Nat) => (⟨∅, (t : Int) + 2⟩ : Sentence))).get? m = some ⟨∅, (m : Int) + 2⟩ := by
    rw [List.get?_map, List.get?_eq_getElem?, List.getElem?_range (by omega)]
    rfl
  have h1 : (badKB m).get? (m + 2) = some ⟨∅, (m : Int) + 2⟩ := by
    unfold badKB
    rw [List.get?_append_right (by simp only [List.length_cons, List.length_nil]; omega)]
    rw [show m + 2 - ([⟨∅, 1⟩, ⟨∅, -1⟩] : List Sentence).length = m from by
      simp only [List.length_cons, List.length_nil]; omega]
    exact hB
  rw [List.getD_eq_get?, h1]
  rfl

theorem derived_badKB (m : Nat) :
    derivedSentence ⟨∅, -1⟩ ⟨∅, (m : Int) + 2⟩ = ⟨∅, ((m + 1 : Nat) : Int) + 2⟩ := by
  unfold derivedSentence
  simp only [Finset.empty_sdiff, Sentence.mk.injEq, true_and]
  push_cast
  ring

theorem step5Upd_badKB (m : Nat) :
    step5Upd ⟨∅, -1⟩ (badKB m) ⟨∅, (m : Int) + 2⟩ = badKB (m + 1) := by
  have htrig : trig ⟨∅, -1⟩ ⟨∅, (m : Int) + 2⟩ := by
    refine ⟨Finset.empty_subset _, by show (0 : Int) < (m : Int) + 2; omega, ?_⟩
    intro heq
    simp only [Sentence.mk.injEq, true_and] at heq
    omega
  have hnot : derivedSentence ⟨∅, -1⟩ ⟨∅, (m : Int) + 2⟩ ∉ badKB m := by
    rw [derived_badKB]
    unfold badKB
    intro hmem
    rcases List.mem_append.1 hmem with h | h
    · rcases List.mem_cons.1 h with h2 | h2
      · simp only [Sentence.mk.injEq, true_and] at h2
        omega
      · rcases List.mem_cons.1 h2 with h3 | h3
        · simp only [Sentence.mk.injEq, true_and] at h3
          omega
        · cases h3
    · rw [List.mem_map] at h
      obtain ⟨t, ht, heq⟩ := h
      rw [List.mem_range] at ht
      simp only [Sentence.mk.injEq, true_and] at heq
      omega
  unfold step5Upd
  rw [if_pos htrig, if_neg hnot, derived_badKB]
  unfold badKB
  rw [List.append_assoc]
  congr 1
  conv_rhs => rw [List.range_succ, List.map_append]
  rfl

theorem step5Go_badKB (fuel : Nat) : ∀ m, step5Go fuel ⟨∅, -1⟩ (badKB m) (m + 2) = none := by
  induction fuel with
  | zero => intro m; rfl
  | succ fuel ih =>
    intro m
    rw [step5Go_succ, if_pos (by rw [badKB_length]; omega), badKB_getD, step5Upd_badKB]
    have hstep := ih (m + 1)
    rw [show m + 2 + 1 = (m + 1) + 2 from by omega]
    exact hstep

/-- C10 counterexample: on the reachable agent state with an out-of-bounds
mine recorded and one positive-count sentence in knowledge, the call
add_knowledge((0,0), 0) builds the new sentence (empty set, -1), and the
subsumption loop then appends (empty set, 2), (empty set, 3), ... forever: no
amount of fuel makes the call return, so add_knowledge does not terminate on
every agent state and input. -/
theorem c10_counterexample : ¬ terminatesOn c10State (0, 0) 0 := by
  rintro ⟨fuel, st', h⟩
  have e1 : c10State.newSentence4 (0, 0) 0 = ⟨∅, -1⟩ := by decide
  have e2 : (step4 (c10State.stage3 (0, 0) 0)).knowledge = [⟨∅, 1⟩, ⟨∅, -1⟩] := by decide
  have hglobal : ∀ f : Nat, step5Go f ⟨∅, -1⟩ [⟨∅, 1⟩, ⟨∅, -1⟩] 0 = none := by
    intro f
    match f with
    | 0 => rfl
    | 1 => rfl
    | (n + 2) =>
      have h2 : step5Go (n + 2) ⟨∅, -1⟩ [⟨∅, 1⟩, ⟨∅, -1⟩] 0 =
          step5Go n ⟨∅, -1⟩ (badKB 0) 2 := by
        rw [step5Go_succ, if_pos (by decide),
          show ([⟨∅, 1⟩, ⟨∅, -1⟩] : List Sentence).getD 0 ⟨∅, 0⟩ = ⟨∅, 1⟩ from rfl,
          show step5Upd ⟨∅, -1⟩ [⟨∅, 1⟩, ⟨∅, -1⟩] ⟨∅, 1⟩ = badKB 0 from by decide,
          step5Go_succ, if_pos (by decide),
          show (badKB 0).getD 1 ⟨∅, 0⟩ = ⟨∅, -1⟩ from by decide,
          show step5Upd ⟨∅, -1⟩ (badKB 0) ⟨∅, -1⟩ = badKB 0 from by decide]
      rw [h2]
      exact step5Go_badKB n 0
  simp only [MinesweeperAI.add_knowledge, e1, e2] at h
  rw [hglobal fuel] at h
  cases h

theorem drop_getD_cons {l : List Sentence} {i : Nat} (h : i < l.length) :
    l.drop i = l.getD i ⟨∅, 0⟩ :: l.drop (i + 1) := by
  rw [List.drop_eq_getElem_cons h]
  congr 1
  rw [List.getD_eq_get?, List.get?_eq_getElem?, List.getElem?_eq_getElem h]
  rfl

theorem step5Measure_cons (ns : Sentence) (kb : List Sentence) (i : Nat)
    (h : i < kb.length) :
    step5Measure ns kb i =
      1 + chainF ns (kb.getD i ⟨∅, 0⟩) + step5Measure ns kb (i + 1) := by
  unfold step5Measure
  rw [drop_getD_cons h, List.map_cons, List.sum_cons]

theorem step5Measure_append (ns : Sentence) (kb : List Sentence) (d : Sentence)
    (i : Nat) (h : i ≤ kb.length) :
    step5Measure ns (kb ++ [d]) i = step5Measure ns kb i + (1 + chainF ns d) := by
  unfold step5Measure
  rw [List.drop_append_of_le_length h, List.map_append, List.sum_append]
  simp

theorem step5Measure_pos (ns : Sentence) (kb : List Sentence) (i : Nat)
    (h : i < kb.length) : 1 ≤ step5Measure ns kb i := by
  rw [step5Measure_cons ns kb i h]
  omega

theorem chainF_lt (ns s : Sentence) (htrig : trig ns s)
    (hc : ns.cells ≠ ∅ ∨ 0 < ns.count) :
    chainF ns (derivedSentence ns s) < chainF ns s := by
  by_cases hemp : ns.cells = ∅
  · have hpos : 0 < ns.count := hc.resolve_left (not_not_intro hemp)
    have hs : 0 < s.count := htrig.2.1
    have e1 : chainF ns s = (s.count.toNat + ns.count.toNat - 1) / ns.count.toNat := by
      unfold chainF
      rw [if_pos hemp, if_pos hpos]
    have e2 : chainF ns (derivedSentence ns s) =
        ((s.count - ns.count).toNat + ns.count.toNat - 1) / ns.count.toNat := by
      unfold chainF
      rw [if_pos hemp, if_pos hpos]
      rfl
    rw [e1, e2]
    have hc1 : 1 ≤ ns.count.toNat := by omega
    have hsc1 : 1 ≤ s.count.toNat := by omega
    have hdt : (s.count - ns.count).toNat = s.count.toNat - ns.count.toNat := by omega
    rw [hdt]
    by_cases hle : s.count.toNat ≤ ns.count.toNat
    · have hl : s.count.toNat - ns.count.toNat = 0 := by omega
      rw [hl]
      have hz : (0 + ns.count.toNat - 1) / ns.count.toNat = 0 :=
        Nat.div_eq_of_lt (by omega)
      rw [hz]
      have hone : 1 ≤ (s.count.toNat + ns.count.toNat - 1) / ns.count.toNat :=
        (Nat.le_div_iff_mul_le (by omega)).2 (by omega)
      omega
    · have h1 : s.count.toNat - ns.count.toNat + ns.count.toNat - 1 = s.count.toNat - 1 := by
        omega
      have h2 : s.count.toNat + ns.count.toNat - 1 = (s.count.toNat - 1) + ns.count.toNat := by
        omega
      rw [h1, h2, Nat.add_div_right _ (by omega)]
      omega
  · have e1 : chainF ns s = 1 := by
      unfold chainF
      rw [if_neg hemp, if_pos htrig.1]
    have hnsub : ¬ ns.cells ⊆ (derivedSentence ns s).cells := by
      intro hsub
      obtain ⟨x, hx⟩ := Finset.nonempty_iff_ne_empty.2 hemp
      have hx2 := hsub hx
      rw [show (derivedSentence ns s).cells = s.cells \ ns.cells from rfl,
        Finset.mem_sdiff] at hx2
      exact hx2.2 hx
    have e2 : chainF ns (derivedSentence ns s) = 0 := by
      unfold chainF
      rw [if_neg hemp, if_neg hnsub]
    rw [e1, e2]
    omega

theorem step5Measure_decreases (ns : Sentence) (kb : List Sentence) (i : Nat)
    (hcond : ns.cells ≠ ∅ ∨ 0 ≤ ns.count) (hlen : i < kb.length) :
    step5Measure ns (step5Upd ns kb (kb.getD i ⟨∅, 0⟩)) (i + 1) < step5Measure ns kb i := by
  have hbase := step5Measure_cons ns kb i hlen
  rcases step5Upd_cases ns kb (kb.getD i ⟨∅, 0⟩) with hU | ⟨hU, htrig, hnot⟩
  · rw [hU]
    omega
  · rw [hU, step5Measure_append ns kb _ (i + 1) (by omega)]
    have hflt : chainF ns (derivedSentence ns (kb.getD i ⟨∅, 0⟩)) <
        chainF ns (kb.getD i ⟨∅, 0⟩) := by
      apply chainF_lt _ _ htrig
      rcases hcond with h | h
      · exact Or.inl h
      · by_cases hemp : ns.cells = ∅
        · by_cases hz : ns.count = 0
          · exfalso
            have hd_eq : derivedSentence ns (kb.getD i ⟨∅, 0⟩) = kb.getD i ⟨∅, 0⟩ := by
              unfold derivedSentence
              rw [hemp, hz]
              simp
            rw [hd_eq] at hnot
            exact hnot (List.get?_mem (get?_eq_some_getD hlen))
          · exact Or.inr (by omega)
        · exact Or.inl hemp
    omega

theorem step5Go_terminates (M : Nat) :
    ∀ (ns : Sentence) (kb : List Sentence) (i : Nat),
      (ns.cells ≠ ∅ ∨ 0 ≤ ns.count) → step5Measure ns kb i ≤ M →
      ∃ fuel kb', step5Go fuel ns kb i = some kb' := by
  induction M with
  | zero =>
    intro ns kb i hc hm
    by_cases hlen : i < kb.length
    · exact absurd hm (by have := step5Measure_pos ns kb i hlen; omega)
    · exact ⟨1, kb, by
        show step5Go (0 + 1) ns kb i = some kb
        rw [step5Go_succ, if_neg hlen]⟩
  | succ M ihM =>
    intro ns kb i hc hm
    by_cases hlen : i < kb.length
    · have hdec := step5Measure_decreases ns kb i hc hlen
      obtain ⟨fuel, kb', hf⟩ := ihM ns (step5Upd ns kb (kb.getD i ⟨∅, 0⟩)) (i + 1) hc (by omega)
      exact ⟨fuel + 1, kb', by rw [step5Go_succ, if_pos hlen]; exact hf⟩
    · exact ⟨1, kb, by
        show step5Go (0 + 1) ns kb i = some kb
        rw [step5Go_succ, if_neg hlen]⟩

/-- C10 amended: add_knowledge terminates on every agent state and input for
which the constructed new sentence (as mutated by step 4) has a non-empty cell
set or a nonnegative count; in particular on every state and input reached
with honest board counts.  The subsumption loop does visit its own appended
sentences, but when the new sentence has non-empty cells an appended
difference sentence can never again contain them, and when it is empty with
nonnegative count the derived counts strictly decrease, so the
structural-equality dedup check makes the loop end.  (With an empty cell set
and negative count the loop diverges, see the counterexample.) -/
theorem c10_terminates_of_nonneg (ai : MinesweeperAI) (cell : Cell) (count : Int)
    (h : (ai.newSentence4 cell count).cells ≠ ∅ ∨ 0 ≤ (ai.newSentence4 cell count).count) :
    terminatesOn ai cell count := by
  obtain ⟨fuel, kb', hf⟩ := step5Go_terminates
    (step5Measure (ai.newSentence4 cell count) (step4 (ai.stage3 cell count)).knowledge 0)
    (ai.newSentence4 cell count) (step4 (ai.stage3 cell count)).knowledge 0 h (Nat.le_refl _)
  refine ⟨fuel, { step4 (ai.stage3 cell count) with knowledge := kb' }, ?_⟩
  simp only [MinesweeperAI.add_knowledge]
  rw [hf]
  rfl

/-- C10 witness: the call add_knowledge((0,0), 1) on a fresh 2 x 2 agent
builds a sentence with the three in-bounds neighbors as cells, which is
non-empty, so the call terminates. -/
theorem c10_witness : terminatesOn (MinesweeperAI.init 2 2) (0, 0) 1 :=
  c10_terminates_of_nonneg (MinesweeperAI.init 2 2) (0, 0) 1 (Or.inl (by decide))
